import Mathlib

/-!
Verification of the wp2git revision-export script (src/wp2git/wp2git.py)
against its natural-language specification.

The embedding below follows the source line by line:
* the timestamp-ordered round-robin merge loop (lines 130-140 and 314-315),
* the byte-offset diff application loop (lines 160-244) with Python
  `assert` statements modelled as `Except.error` results,
* the full-text acquisition / mismatch cross-check (lines 152-156, 246-252),
* the `id2git` mark table, comment reference scan and `get-mark`
  round trip (lines 142-143, 266-279, 302-303, 307-312),
* the comment section / denoise / placeholder pipeline (lines 281-296).

Bytes are modelled as `Nat`, byte strings as `List Nat`, Python `str`
values as `List Char`.  Python `assert` failures, `IndexError`,
`TypeError` and `StopIteration` all abort the export; each is modelled
as an `Except.error` with a distinguishing message.
-/

/-! ### Revision merge loop (lines 130-140, 314-315)

`MRev` is one revision record as seen by the merge: only the timestamp
(`time.mktime(rev['timestamp'])`, a number) matters for ordering. -/

structure MRev where
  ts : Nat
  revid : Nat
deriving DecidableEq, Repr

/-- Lines 133-137: the scan over `enumerate(next_revs)` keeping the lowest
timestamp, with `min_ts` initialised to `1 << 63` and a strict `<` update
(so the first source attaining the minimum wins). -/
def scanMinAux : Nat → Nat → Option Nat → List (Option MRev) → Nat × Option Nat
  | _, mts, mii, [] => (mts, mii)
  | ii, mts, mii, none :: rest => scanMinAux (ii + 1) mts mii rest
  | ii, mts, mii, some r :: rest =>
    if r.ts < mts then scanMinAux (ii + 1) r.ts (some ii) rest
    else scanMinAux (ii + 1) mts mii rest

def scanMin (l : List (Option MRev)) : Nat × Option Nat :=
  scanMinAux 0 (2 ^ 63) none l

/-- Lines 131-140 and 314-315: `while any(next_revs)` pick the head with the
lowest timestamp, emit it tagged with its source index, then refill that
source's head from its iterator (`next_revs[min_ii] = next(rev_iters[min_ii],
None)`).  `fuel` bounds the number of loop iterations; the caller passes the
total number of revisions, which is exactly the number of iterations the
Python loop performs. -/
def mergeLoop : Nat → List (Option MRev) → List (List MRev) → List (Nat × MRev)
  | 0, _, _ => []
  | fuel + 1, next, its =>
    if next.any Option.isSome then
      match (scanMin next).2 with
      | some ii =>
        match next[ii]? with
        | some (some rev) =>
          let src := (its[ii]?).getD []
          (ii, rev) :: mergeLoop fuel (next.set ii src.head?) (its.set ii src.tail)
        | _ => []
      | none => []
    else []

/-- The whole merge of the per-article revision streams: each source's first
item is pulled eagerly (line 112 `next_revs.append(next(revit, None))`), the
rest stay in the iterator. -/
def mergeRevs (srcs : List (List MRev)) : List (Nat × MRev) :=
  mergeLoop (srcs.map List.length).sum (srcs.map List.head?) (srcs.map List.tail)

/-- Remaining (not yet emitted) items of source `j`: its current head in
`next_revs` followed by what is left in its iterator. -/
def remSrc (next : List (Option MRev)) (its : List (List MRev)) (j : Nat) : List MRev :=
  (match next[j]? with
   | some (some r) => [r]
   | _ => []) ++ (its[j]?).getD []

/-- Output order required by the spec: ascending timestamps, ties broken by
source index. -/
def mergeLE (a b : Nat × MRev) : Prop :=
  a.2.ts < b.2.ts ∨ (a.2.ts = b.2.ts ∧ a.1 ≤ b.1)

/-- Restriction of the merged output to the items of source `j`. -/
def bySource (j : Nat) (l : List (Nat × MRev)) : List MRev :=
  l.filterMap fun p => if p.1 = j then some p.2 else none

theorem scanMinAux_spec (l : List (Option MRev)) : ∀ (i mts : Nat) (mii : Option Nat),
    (scanMinAux i mts mii l).1 ≤ mts
    ∧ (∀ (k : Nat) (r : MRev), l[k]? = some (some r) → (scanMinAux i mts mii l).1 ≤ r.ts)
    ∧ ((scanMinAux i mts mii l).1 = mts ∧ (scanMinAux i mts mii l).2 = mii
       ∨ ∃ (k : Nat) (r : MRev), l[k]? = some (some r) ∧ r.ts = (scanMinAux i mts mii l).1
          ∧ (scanMinAux i mts mii l).2 = some (i + k)
          ∧ (scanMinAux i mts mii l).1 < mts
          ∧ ∀ (k' : Nat) (r' : MRev), k' < k → l[k']? = some (some r') →
              (scanMinAux i mts mii l).1 < r'.ts) := by
  induction l with
  | nil =>
    intro i mts mii
    refine ⟨Nat.le_refl _, ?_, Or.inl ⟨rfl, rfl⟩⟩
    intro k r hk
    simp at hk
  | cons hd tl ih =>
    intro i mts mii
    rcases hd with _ | r0
    · have heq : scanMinAux i mts mii (none :: tl) = scanMinAux (i + 1) mts mii tl := by
        simp [scanMinAux]
      obtain ⟨h1, h2, h3⟩ := ih (i + 1) mts mii
      rw [heq]
      refine ⟨h1, ?_, ?_⟩
      · intro k r hk
        cases k with
        | zero => simp at hk
        | succ k => exact h2 k r (by simpa using hk)
      · rcases h3 with ⟨hv, hw⟩ | ⟨k, r, hk, hrts, hw, hvlt, hprev⟩
        · exact Or.inl ⟨hv, hw⟩
        · refine Or.inr ⟨k + 1, r, by simpa using hk, hrts, by rw [hw]; congr 1; omega, hvlt, ?_⟩
          intro k' r' hk' hk'get
          cases k' with
          | zero => simp at hk'get
          | succ k' => exact hprev k' r' (by omega) (by simpa using hk'get)
    · by_cases hlt : r0.ts < mts
      · have heq : scanMinAux i mts mii (some r0 :: tl) = scanMinAux (i + 1) r0.ts (some i) tl := by
          rw [scanMinAux, if_pos hlt]
        obtain ⟨h1, h2, h3⟩ := ih (i + 1) r0.ts (some i)
        rw [heq]
        refine ⟨Nat.le_trans h1 (Nat.le_of_lt hlt), ?_, ?_⟩
        · intro k r hk
          cases k with
          | zero =>
            simp at hk; subst hk; exact h1
          | succ k => exact h2 k r (by simpa using hk)
        · rcases h3 with ⟨hv, hw⟩ | ⟨k, r, hk, hrts, hw, hvlt, hprev⟩
          · refine Or.inr ⟨0, r0, by simp, hv.symm, by rw [hw]; simp, by rw [hv]; exact hlt, ?_⟩
            intro k' r' hk' _
            omega
          · refine Or.inr ⟨k + 1, r, by simpa using hk, hrts, by rw [hw]; congr 1; omega,
              Nat.lt_trans hvlt hlt, ?_⟩
            intro k' r' hk' hk'get
            cases k' with
            | zero =>
              simp at hk'get; subst hk'get; exact hvlt
            | succ k' => exact hprev k' r' (by omega) (by simpa using hk'get)
      · have heq : scanMinAux i mts mii (some r0 :: tl) = scanMinAux (i + 1) mts mii tl := by
          rw [scanMinAux, if_neg hlt]
        obtain ⟨h1, h2, h3⟩ := ih (i + 1) mts mii
        rw [heq]
        refine ⟨h1, ?_, ?_⟩
        · intro k r hk
          cases k with
          | zero =>
            simp at hk; subst hk
            exact Nat.le_trans h1 (Nat.le_of_not_lt hlt)
          | succ k => exact h2 k r (by simpa using hk)
        · rcases h3 with ⟨hv, hw⟩ | ⟨k, r, hk, hrts, hw, hvlt, hprev⟩
          · exact Or.inl ⟨hv, hw⟩
          · refine Or.inr ⟨k + 1, r, by simpa using hk, hrts, by rw [hw]; congr 1; omega, hvlt, ?_⟩
            intro k' r' hk' hk'get
            cases k' with
            | zero =>
              simp at hk'get; subst hk'get
              exact Nat.lt_of_lt_of_le hvlt (Nat.le_of_not_lt hlt)
            | succ k' => exact hprev k' r' (by omega) (by simpa using hk'get)

theorem scanMin_le (l : List (Option MRev)) (k : Nat) (r : MRev)
    (hk : l[k]? = some (some r)) : (scanMin l).1 ≤ r.ts :=
  (scanMinAux_spec l 0 (2 ^ 63) none).2.1 k r hk

theorem scanMin_some_spec (l : List (Option MRev)) (jj : Nat)
    (h : (scanMin l).2 = some jj) :
    ∃ r : MRev, l[jj]? = some (some r) ∧ r.ts = (scanMin l).1
      ∧ ∀ (k' : Nat) (r' : MRev), k' < jj → l[k']? = some (some r') → (scanMin l).1 < r'.ts := by
  obtain ⟨_, _, h3⟩ := scanMinAux_spec l 0 (2 ^ 63) none
  rcases h3 with ⟨_, hw⟩ | ⟨k, r, hk, hrts, hw, _, hprev⟩
  · rw [show scanMinAux 0 (2 ^ 63) none l = scanMin l from rfl] at hw
    rw [h] at hw; simp at hw
  · rw [show scanMinAux 0 (2 ^ 63) none l = scanMin l from rfl] at hrts hw hprev
    rw [h] at hw
    simp at hw
    subst hw
    exact ⟨r, hk, hrts, hprev⟩

theorem scanMin_isSome (l : List (Option MRev)) (k : Nat) (r : MRev)
    (hk : l[k]? = some (some r)) (hb : r.ts < 2 ^ 63) :
    ∃ jj, (scanMin l).2 = some jj := by
  obtain ⟨_, h2, h3⟩ := scanMinAux_spec l 0 (2 ^ 63) none
  rcases h3 with ⟨hv, _⟩ | ⟨_, _, _, _, hw, _, _⟩
  · exfalso
    have := h2 k r hk
    rw [show scanMinAux 0 (2 ^ 63) none l = scanMin l from rfl] at this hv
    omega
  · exact ⟨_, hw⟩

theorem getElem?_some_lt {α : Type} (l : List α) (i : Nat) (x : α)
    (h : l[i]? = some x) : i < l.length := by
  by_contra hlt
  rw [List.getElem?_eq_none (Nat.le_of_not_lt hlt)] at h
  cases h

theorem remSrc_set_ne (next : List (Option MRev)) (its : List (List MRev))
    (ii j : Nat) (v : Option MRev) (t : List MRev) (h : j ≠ ii) :
    remSrc (next.set ii v) (its.set ii t) j = remSrc next its j := by
  unfold remSrc
  rw [List.getElem?_set_ne (fun he => h he.symm), List.getElem?_set_ne (fun he => h he.symm)]

theorem remSrc_after_pop (next : List (Option MRev)) (its : List (List MRev))
    (ii : Nat) (rev : MRev) (hii : next[ii]? = some (some rev)) :
    remSrc (next.set ii ((its[ii]?).getD []).head?) (its.set ii ((its[ii]?).getD []).tail) ii
      = (its[ii]?).getD [] := by
  have hlt : ii < next.length := getElem?_some_lt next ii _ hii
  by_cases hits : ii < its.length
  · unfold remSrc
    rw [List.getElem?_set_self hlt, List.getElem?_set_self hits]
    cases hsrc : (its[ii]?).getD [] with
    | nil => simp [hsrc]
    | cons a t => simp [hsrc]
  · have hnone : its[ii]? = none := List.getElem?_eq_none (Nat.le_of_not_lt hits)
    unfold remSrc
    rw [List.set_eq_of_length_le (Nat.le_of_not_lt hits), List.getElem?_set_self hlt, hnone]
    simp

theorem remSrc_cons (next : List (Option MRev)) (its : List (List MRev))
    (ii : Nat) (rev : MRev) (hii : next[ii]? = some (some rev)) :
    remSrc next its ii = rev :: (its[ii]?).getD [] := by
  unfold remSrc
  rw [hii]
  rfl

/-- Every item the merge loop emits tagged with source `j` is one of the
remaining items of source `j`. -/
theorem mergeLoop_mem : ∀ (fuel : Nat) (next : List (Option MRev)) (its : List (List MRev))
    (j : Nat) (y : MRev), (j, y) ∈ mergeLoop fuel next its → y ∈ remSrc next its j := by
  intro fuel
  induction fuel with
  | zero => intro next its j y h; simp [mergeLoop] at h
  | succ fuel ih =>
    intro next its j y h
    rw [mergeLoop] at h
    split at h
    · split at h
      · split at h
        · rename_i oA ii hsc oB rev hnx
          simp only [List.mem_cons] at h
          rcases h with h | h
          · have h1 : j = ii ∧ y = rev := by
              constructor
              · exact congrArg Prod.fst h
              · exact congrArg Prod.snd h
            rw [remSrc_cons next its j rev (h1.1 ▸ hnx)]
            simp [h1.2]
          · have hmem := ih _ _ j y h
            by_cases hj : j = ii
            · subst hj
              rw [remSrc_after_pop next its j rev hnx] at hmem
              rw [remSrc_cons next its j rev hnx]
              exact List.mem_cons_of_mem _ hmem
            · rwa [remSrc_set_ne next its ii j _ _ hj] at hmem
        · simp at h
      · simp at h
    · simp at h

/-- The timestamp order used on revision lists. -/
def tsLE (a b : MRev) : Prop := a.ts ≤ b.ts

/-- If source `j` still has remaining items, its current head is one of them
and bounds them all. -/
theorem remSrc_head_bound (next : List (Option MRev)) (its : List (List MRev))
    (hlen : next.length = its.length)
    (hsorted : ∀ j, List.Sorted tsLE (remSrc next its j))
    (hempty : ∀ j : Nat, next[j]? = some none → (its[j]?).getD [] = [])
    (j : Nat) (y : MRev) (hy : y ∈ remSrc next its j) :
    ∃ h0 : MRev, next[j]? = some (some h0) ∧ h0.ts ≤ y.ts := by
  cases hnx : next[j]? with
  | none =>
    exfalso
    have hjlen : next.length ≤ j := by
      by_contra hcon
      rw [List.getElem?_eq_getElem (Nat.lt_of_not_le hcon)] at hnx
      cases hnx
    have : its[j]? = none := List.getElem?_eq_none (hlen ▸ hjlen)
    unfold remSrc at hy
    rw [hnx, this] at hy
    simp at hy
  | some o =>
    cases o with
    | none =>
      exfalso
      have h0 := hempty j hnx
      unfold remSrc at hy
      rw [hnx, h0] at hy
      simp at hy
    | some h0 =>
      refine ⟨h0, rfl, ?_⟩
      have hs := hsorted j
      rw [remSrc_cons next its j h0 hnx] at hs
      rw [remSrc_cons next its j h0 hnx] at hy
      rcases List.mem_cons.mp hy with hy | hy
      · exact hy ▸ Nat.le_refl _
      · exact List.rel_of_sorted_cons hs y hy

/-- The merge loop output is ascending by timestamp with ties broken by
source index, provided every source's remaining items are sorted. -/
theorem mergeLoop_pairwise : ∀ (fuel : Nat) (next : List (Option MRev)) (its : List (List MRev)),
    next.length = its.length →
    (∀ j, List.Sorted tsLE (remSrc next its j)) →
    (∀ j : Nat, next[j]? = some none → (its[j]?).getD [] = []) →
    List.Pairwise mergeLE (mergeLoop fuel next its) := by
  intro fuel
  induction fuel with
  | zero => intro next its _ _ _; simp [mergeLoop]
  | succ fuel ih =>
    intro next its hlen hsorted hempty
    rw [mergeLoop]
    split
    · split
      · split
        · rename_i oA ii hsc oB rev hnx
          obtain ⟨r, hr, hrts, hprev⟩ := scanMin_some_spec next ii hsc
          have hrev : rev = r := by
            rw [hnx] at hr
            exact Option.some.inj (Option.some.inj hr)
          have hiilt : ii < next.length := getElem?_some_lt next ii _ hnx
          have hempty' : ∀ j : Nat, (next.set ii ((its[ii]?).getD []).head?)[j]? = some none →
              (((its.set ii ((its[ii]?).getD []).tail)[j]?).getD []) = [] := by
            intro j hj
            by_cases hjii : j = ii
            · subst hjii
              rw [List.getElem?_set_self hiilt] at hj
              have hhd : ((its[j]?).getD []).head? = none := Option.some.inj hj
              have hnil : (its[j]?).getD [] = [] := List.head?_eq_none_iff.mp hhd
              by_cases hits : j < its.length
              · rw [List.getElem?_set_self hits]
                simp [hnil]
              · rw [List.set_eq_of_length_le (Nat.le_of_not_lt hits)]
                rw [List.getElem?_eq_none (Nat.le_of_not_lt hits)]
                rfl
            · rw [List.getElem?_set_ne (fun he => hjii he.symm)] at hj
              rw [List.getElem?_set_ne (fun he => hjii he.symm)]
              exact hempty j hj
          have hsorted' : ∀ j, List.Sorted tsLE
              (remSrc (next.set ii ((its[ii]?).getD []).head?)
                (its.set ii ((its[ii]?).getD []).tail) j) := by
            intro j
            by_cases hjii : j = ii
            · subst hjii
              rw [remSrc_after_pop next its j rev hnx]
              have := hsorted j
              rw [remSrc_cons next its j rev hnx] at this
              exact this.of_cons
            · rw [remSrc_set_ne next its ii j _ _ hjii]
              exact hsorted j
          refine List.pairwise_cons.mpr ⟨?_, ih _ _ (by simp [hlen]) hsorted' hempty'⟩
          intro b hb
          obtain ⟨j, y⟩ := b
          have hmem := mergeLoop_mem fuel _ _ j y hb
          by_cases hjii : j = ii
          · subst hjii
            rw [remSrc_after_pop next its j rev hnx] at hmem
            have hs := hsorted j
            rw [remSrc_cons next its j rev hnx] at hs
            have hle : rev.ts ≤ y.ts := List.rel_of_sorted_cons hs y hmem
            by_cases hstrict : rev.ts < y.ts
            · exact Or.inl hstrict
            · exact Or.inr ⟨Nat.le_antisymm hle (Nat.le_of_not_lt hstrict), Nat.le_refl _⟩
          · rw [remSrc_set_ne next its ii j _ _ hjii] at hmem
            obtain ⟨h0, hh0, hh0le⟩ :=
              remSrc_head_bound next its hlen hsorted hempty j y hmem
            rcases Nat.lt_or_ge j ii with hji | hji
            · have hv : (scanMin next).1 < h0.ts := hprev j h0 hji hh0
              exact Or.inl (by rw [hrev, hrts]; exact Nat.lt_of_lt_of_le hv hh0le)
            · have hv : (scanMin next).1 ≤ h0.ts := scanMin_le next j h0 hh0
              have hle : rev.ts ≤ y.ts := by
                rw [hrev, hrts]
                exact Nat.le_trans hv hh0le
              by_cases hstrict : rev.ts < y.ts
              · exact Or.inl hstrict
              · exact Or.inr ⟨Nat.le_antisymm hle (Nat.le_of_not_lt hstrict), hji⟩
        · exact List.Pairwise.nil
      · exact List.Pairwise.nil
    · exact List.Pairwise.nil

theorem mem_of_getElem?_eq {α : Type} {l : List α} {k : Nat} {a : α}
    (h : l[k]? = some a) : a ∈ l := by
  obtain ⟨hk, he⟩ := List.getElem?_eq_some_iff.mp h
  exact he ▸ List.getElem_mem hk

/-- Total number of revisions not yet emitted. -/
def totalLen (next : List (Option MRev)) (its : List (List MRev)) : Nat :=
  next.countP (fun o => o.isSome) + (its.map List.length).sum

theorem countP_set_lemma {α : Type} (p : α → Bool) :
    ∀ (l : List α) (i : Nat) (v w : α), l[i]? = some w →
    (l.set i v).countP p + (if p w then 1 else 0) = l.countP p + (if p v then 1 else 0) := by
  intro l
  induction l with
  | nil => intro i v w h; simp at h
  | cons a t ih =>
    intro i v w h
    cases i with
    | zero =>
      simp only [List.getElem?_cons_zero, Option.some.injEq] at h
      subst h
      simp [List.set, List.countP_cons]
      omega
    | succ i =>
      simp only [List.getElem?_cons_succ] at h
      simp only [List.set, List.countP_cons]
      have := ih i v w h
      omega

theorem mapSum_set_lemma {α : Type} (f : α → Nat) :
    ∀ (l : List α) (i : Nat) (v w : α), l[i]? = some w →
    ((l.set i v).map f).sum + f w = (l.map f).sum + f v := by
  intro l
  induction l with
  | nil => intro i v w h; simp at h
  | cons a t ih =>
    intro i v w h
    cases i with
    | zero =>
      simp only [List.getElem?_cons_zero, Option.some.injEq] at h
      subst h
      simp [List.set]
      omega
    | succ i =>
      simp only [List.getElem?_cons_succ] at h
      simp only [List.set, List.map_cons, List.sum_cons]
      have := ih i v w h
      omega

/-- Each merge step consumes exactly one remaining revision. -/
theorem totalLen_step (next : List (Option MRev)) (its : List (List MRev))
    (ii : Nat) (rev : MRev) (hnx : next[ii]? = some (some rev)) :
    totalLen (next.set ii ((its[ii]?).getD []).head?)
      (its.set ii ((its[ii]?).getD []).tail) + 1 = totalLen next its := by
  have hcount := countP_set_lemma (fun o => o.isSome) next ii
    (((its[ii]?).getD []).head?) (some rev) hnx
  simp only [Option.isSome_some, if_pos] at hcount
  cases hits : its[ii]? with
  | some l0 =>
    have hsum := mapSum_set_lemma List.length its ii ((some l0).getD ([] : List MRev)).tail l0 hits
    cases l0 with
    | nil => simp_all [totalLen]; omega
    | cons a t => simp_all [totalLen]; omega
  | none =>
    have hlen : its.length ≤ ii := by
      by_contra hcon
      rw [List.getElem?_eq_getElem (Nat.lt_of_not_le hcon)] at hits
      cases hits
    rw [List.set_eq_of_length_le hlen]
    simp_all [totalLen]
    omega

theorem remSrc_nil_of_nosome (next : List (Option MRev)) (its : List (List MRev))
    (hlen : next.length = its.length)
    (hempty : ∀ j : Nat, next[j]? = some none → (its[j]?).getD [] = [])
    (hno : ∀ o ∈ next, o.isSome = false) (j : Nat) : remSrc next its j = [] := by
  unfold remSrc
  cases hnx : next[j]? with
  | some o =>
    have hmem := mem_of_getElem?_eq hnx
    have hfalse := hno o hmem
    have ho : o = none := by
      cases o with
      | none => rfl
      | some r => simp at hfalse
    subst ho
    rw [hempty j hnx]
    rfl
  | none =>
    have hjlen : next.length ≤ j := by
      by_contra hcon
      rw [List.getElem?_eq_getElem (Nat.lt_of_not_le hcon)] at hnx
      cases hnx
    rw [List.getElem?_eq_none (hlen ▸ hjlen)]
    rfl

theorem hempty_step (next : List (Option MRev)) (its : List (List MRev)) (ii : Nat)
    (hiilt : ii < next.length)
    (hempty : ∀ j : Nat, next[j]? = some none → (its[j]?).getD [] = []) :
    ∀ j : Nat, (next.set ii ((its[ii]?).getD []).head?)[j]? = some none →
      (((its.set ii ((its[ii]?).getD []).tail)[j]?).getD []) = [] := by
  intro j hj
  by_cases hjii : j = ii
  · subst hjii
    rw [List.getElem?_set_self hiilt] at hj
    have hhd : ((its[j]?).getD []).head? = none := Option.some.inj hj
    have hnil : (its[j]?).getD [] = [] := List.head?_eq_none_iff.mp hhd
    by_cases hits : j < its.length
    · rw [List.getElem?_set_self hits]
      simp [hnil]
    · rw [List.set_eq_of_length_le (Nat.le_of_not_lt hits)]
      rw [List.getElem?_eq_none (Nat.le_of_not_lt hits)]
      rfl
  · rw [List.getElem?_set_ne (fun he => hjii he.symm)] at hj
    rw [List.getElem?_set_ne (fun he => hjii he.symm)]
    exact hempty j hj

/-- When given enough fuel (as `mergeRevs` does), the merge loop emits, for
each source `j`, exactly that source's remaining items in order: every
selection pulls exactly one new item from the selected source and nothing
else. -/
theorem mergeLoop_bySource : ∀ (fuel : Nat) (next : List (Option MRev)) (its : List (List MRev)),
    next.length = its.length →
    (∀ j : Nat, next[j]? = some none → (its[j]?).getD [] = []) →
    (∀ (j : Nat) (y : MRev), y ∈ remSrc next its j → y.ts < 2 ^ 63) →
    totalLen next its ≤ fuel →
    ∀ j : Nat, bySource j (mergeLoop fuel next its) = remSrc next its j := by
  intro fuel
  induction fuel with
  | zero =>
    intro next its hlen hempty hbound hfuel j
    have h0 : totalLen next its = 0 := Nat.le_zero.mp hfuel
    have hc : next.countP (fun o => o.isSome) = 0 := by
      unfold totalLen at h0
      omega
    have hno : ∀ o ∈ next, o.isSome = false := by
      intro o ho
      have := List.countP_eq_zero.mp hc o ho
      simpa using this
    rw [remSrc_nil_of_nosome next its hlen hempty hno j]
    simp [mergeLoop, bySource]
  | succ fuel ih =>
    intro next its hlen hempty hbound hfuel j
    rw [mergeLoop]
    split
    · split
      · split
        · rename_i hany oA ii hsc oB rev hnx
          have hiilt : ii < next.length := getElem?_some_lt next ii _ hnx
          have hstep := totalLen_step next its ii rev hnx
          have hlen' : (next.set ii ((its[ii]?).getD []).head?).length
              = (its.set ii ((its[ii]?).getD []).tail).length := by
            simp [hlen]
          have hempty' := hempty_step next its ii hiilt hempty
          have hbound' : ∀ (j' : Nat) (y : MRev),
              y ∈ remSrc (next.set ii ((its[ii]?).getD []).head?)
                (its.set ii ((its[ii]?).getD []).tail) j' → y.ts < 2 ^ 63 := by
            intro j' y hy
            by_cases hj' : j' = ii
            · subst hj'
              rw [remSrc_after_pop next its j' rev hnx] at hy
              refine hbound j' y ?_
              rw [remSrc_cons next its j' rev hnx]
              exact List.mem_cons_of_mem _ hy
            · rw [remSrc_set_ne next its ii j' _ _ hj'] at hy
              exact hbound j' y hy
          have hfuel' : totalLen (next.set ii ((its[ii]?).getD []).head?)
              (its.set ii ((its[ii]?).getD []).tail) ≤ fuel := by
            omega
          have hbs := ih _ _ hlen' hempty' hbound' hfuel'
          by_cases hj : ii = j
          · subst hj
            have hcons : bySource ii
                ((ii, rev) :: mergeLoop fuel (next.set ii ((its[ii]?).getD []).head?)
                  (its.set ii ((its[ii]?).getD []).tail))
                = rev :: bySource ii (mergeLoop fuel (next.set ii ((its[ii]?).getD []).head?)
                  (its.set ii ((its[ii]?).getD []).tail)) := by
              unfold bySource
              rw [List.filterMap_cons]
              simp
            rw [hcons, remSrc_cons next its ii rev hnx, hbs ii,
              remSrc_after_pop next its ii rev hnx]
          · have hcons : bySource j
                ((ii, rev) :: mergeLoop fuel (next.set ii ((its[ii]?).getD []).head?)
                  (its.set ii ((its[ii]?).getD []).tail))
                = bySource j (mergeLoop fuel (next.set ii ((its[ii]?).getD []).head?)
                  (its.set ii ((its[ii]?).getD []).tail)) := by
              unfold bySource
              rw [List.filterMap_cons]
              simp [hj]
            rw [hcons, hbs j, remSrc_set_ne next its ii j _ _ (fun he => hj he.symm)]
        · rename_i hany oA ii hsc oB hno
          exfalso
          obtain ⟨r, hr, _, _⟩ := scanMin_some_spec next ii hsc
          exact hno r hr
      · rename_i hany oA hsc
        exfalso
        obtain ⟨o, hmem, hiss⟩ := List.any_eq_true.mp hany
        obtain ⟨r, hor⟩ := Option.isSome_iff_exists.mp hiss
        subst hor
        obtain ⟨k, hk⟩ := List.getElem?_of_mem hmem
        have hrrem : r ∈ remSrc next its k := by
          rw [remSrc_cons next its k r hk]
          exact List.mem_cons_self r _
        obtain ⟨jj, hjj⟩ := scanMin_isSome next k r hk (hbound k r hrrem)
        rw [hsc] at hjj
        cases hjj
    · rename_i hany
      have hno : ∀ o ∈ next, o.isSome = false := by
        intro o ho
        by_contra hcon
        refine hany (List.any_eq_true.mpr ⟨o, ho, ?_⟩)
        simp only [Bool.not_eq_false] at hcon
        exact hcon
      rw [remSrc_nil_of_nosome next its hlen hempty hno j]
      simp [bySource]

theorem remSrc_init (srcs : List (List MRev)) (j : Nat) :
    remSrc (srcs.map List.head?) (srcs.map List.tail) j = srcs.getD j [] := by
  unfold remSrc
  rw [List.getD_eq_getElem?_getD, List.getElem?_map, List.getElem?_map]
  cases hj : srcs[j]? with
  | none => rfl
  | some l =>
    cases l with
    | nil => rfl
    | cons a t => rfl

theorem totalLen_init (srcs : List (List MRev)) :
    totalLen (srcs.map List.head?) (srcs.map List.tail) = (srcs.map List.length).sum := by
  induction srcs with
  | nil => rfl
  | cons l t ih =>
    unfold totalLen at *
    simp only [List.map_cons, List.countP_cons, List.sum_cons]
    cases l with
    | nil => simp_all
    | cons a s =>
      simp_all
      omega

instance tsLEDecidable : DecidableRel tsLE := fun a b => by
  unfold tsLE
  exact inferInstance

instance mergeLEDecidable : DecidableRel mergeLE := fun a b => by
  unfold mergeLE
  exact inferInstance

theorem getD_mem_of_lt (srcs : List (List MRev)) (j : Nat) (hj : j < srcs.length) :
    srcs.getD j [] ∈ srcs := by
  rw [List.getD_eq_getElem?_getD, List.getElem?_eq_getElem hj]
  exact List.getElem_mem hj

/-- C1: for sources each individually sorted ascending by timestamp (with
all timestamps below `2 ^ 63`, the sentinel `min_ts` the code starts from),
the merged output of the revision-merge loop is globally ascending by
timestamp, ties are broken in favour of the lower source index, and each
source's items are pulled into the output one at a time, in order and
nothing else: restricting the output to source `j` yields exactly source
`j`'s revision list. -/
theorem merged_output_sorted_stable (srcs : List (List MRev))
    (hsorted : ∀ l ∈ srcs, List.Sorted tsLE l)
    (hbound : ∀ l ∈ srcs, ∀ r ∈ l, r.ts < 2 ^ 63) :
    List.Pairwise mergeLE (mergeRevs srcs)
    ∧ ∀ j : Nat, bySource j (mergeRevs srcs) = srcs.getD j [] := by
  have hlen : (srcs.map List.head?).length = (srcs.map List.tail).length := by simp
  have hsorted' : ∀ j, List.Sorted tsLE (remSrc (srcs.map List.head?) (srcs.map List.tail) j) := by
    intro j
    rw [remSrc_init]
    by_cases hj : j < srcs.length
    · exact hsorted _ (getD_mem_of_lt srcs j hj)
    · rw [List.getD_eq_getElem?_getD, List.getElem?_eq_none (Nat.le_of_not_lt hj)]
      exact List.sorted_nil
  have hempty' : ∀ j : Nat, (srcs.map List.head?)[j]? = some none →
      ((srcs.map List.tail)[j]?).getD [] = [] := by
    intro j hj
    rw [List.getElem?_map] at hj
    cases hsj : srcs[j]? with
    | none => rw [hsj] at hj; cases hj
    | some l =>
      rw [hsj] at hj
      have hl : l.head? = none := Option.some.inj hj
      have hnil : l = [] := List.head?_eq_none_iff.mp hl
      rw [List.getElem?_map, hsj, hnil]
      rfl
  have hbound' : ∀ (j : Nat) (y : MRev),
      y ∈ remSrc (srcs.map List.head?) (srcs.map List.tail) j → y.ts < 2 ^ 63 := by
    intro j y hy
    rw [remSrc_init] at hy
    by_cases hj : j < srcs.length
    · exact hbound _ (getD_mem_of_lt srcs j hj) y hy
    · rw [List.getD_eq_getElem?_getD, List.getElem?_eq_none (Nat.le_of_not_lt hj)] at hy
      simp at hy
  constructor
  · exact mergeLoop_pairwise _ _ _ hlen hsorted' hempty'
  · intro j
    have hres := mergeLoop_bySource _ _ _ hlen hempty' hbound'
      (Nat.le_of_eq (totalLen_init srcs)) j
    unfold mergeRevs
    rw [hres, remSrc_init]

/-- Witness for C1 on the spec's scenario B: two articles with revision
timestamps [10, 30] and [20, 40]; both hypotheses hold and the merged
output is ordered. -/
theorem merged_output_sorted_stable_witness :
    (∀ l ∈ [[MRev.mk 10 1, MRev.mk 30 2], [MRev.mk 20 3, MRev.mk 40 4]], List.Sorted tsLE l)
    ∧ (∀ l ∈ [[MRev.mk 10 1, MRev.mk 30 2], [MRev.mk 20 3, MRev.mk 40 4]],
        ∀ r ∈ l, r.ts < 2 ^ 63)
    ∧ List.Pairwise mergeLE (mergeRevs [[MRev.mk 10 1, MRev.mk 30 2], [MRev.mk 20 3, MRev.mk 40 4]]) :=
  ⟨by decide, by decide,
    (merged_output_sorted_stable _ (by decide) (by decide)).1⟩

/-! ### Diff application (lines 157-244)

The REST compare endpoint returns a list of diff elements; positions are
byte positions.  Bytes are `Nat`, byte strings `List Nat`.  Python slicing
and indexing (including negative indices) are modelled by `pyslice` /
`pyget`; every `assert`, the `TypeError` from comparing `None` and the
`IndexError` from out-of-range indexing abort the program and are modelled
as `Except.error`. -/

structure HighlightRange where
  hstart : Nat
  hlength : Nat
  rtype : Nat
deriving DecidableEq, Repr

structure DiffElem where
  ty : Nat
  text : List Nat
  offsetFrom : Nat
  offsetTo : Option Nat
  highlightRanges : List HighlightRange
deriving DecidableEq, Repr

/-- Python slice index adjustment: negative indices count from the end. -/
def pyIndexAdj (n : Nat) (i : Int) : Int := if i < 0 then i + n else i

def sliceClamp (n : Nat) (i : Int) : Nat := if i < 0 then 0 else min i.toNat n

/-- `l[a:b]` for Python byte strings. -/
def pyslice (l : List Nat) (a b : Int) : List Nat :=
  let a' := sliceClamp l.length (pyIndexAdj l.length a)
  let b' := sliceClamp l.length (pyIndexAdj l.length b)
  (l.take b').drop a'

/-- `l[a:]` for Python byte strings. -/
def pydropFrom (l : List Nat) (a : Int) : List Nat := pyslice l a l.length

/-- `l[i]` for Python byte strings; `none` models an `IndexError`. -/
def pyget (l : List Nat) (i : Int) : Option Nat :=
  let j := pyIndexAdj l.length i
  if j < 0 then none else l[j.toNat]?

/-- Lines 215-229: the `highlightRanges` loop of a type-3 (change) element,
followed by the for-else `output += text[pos:] + b'\n'`.  Returns the new
output and the accumulated `drop`. -/
def hlLoop (text : List Nat) : List Nat → Nat → Nat → List HighlightRange →
    Except String (List Nat × Nat)
  | output, pos, dropped, [] => .ok (output ++ text.drop pos ++ [10], dropped)
  | output, pos, dropped, r :: rest =>
    let e := r.hstart + r.hlength
    let output := output ++ ((text.take r.hstart).drop pos)
    if r.rtype = 0 then
      if r.hstart ≤ e ∧ e ≤ text.length then
        hlLoop text (output ++ ((text.take e).drop r.hstart)) e (dropped + (e - r.hstart)) rest
      else .error "assert start le end le lt"
    else if r.rtype = 1 then hlLoop text output e dropped rest
    else .error "assert rtype eq 1"

/-- Lines 169-238: processing of one diff element.  The state is the output
built so far and `from_pos`.  Each Python `assert` that fails, and each
runtime error, is an `Except.error`. -/
def applyOne (prevtext : List Nat) (st : List Nat × Int) (d : DiffElem) :
    Except String (List Nat × Int) :=
  let output := st.1
  let fromPos := st.2
  let lt : Int := d.text.length
  if d.ty = 0 then
    if (d.offsetFrom : Int) ≥ fromPos then
      if d.offsetFrom + d.text.length ≤ prevtext.length then
        match d.offsetTo with
        | none => .error "TypeError none ge"
        | some toff =>
          if toff ≥ output.length then
            if d.text.isPrefixOf (pydropFrom prevtext (d.offsetFrom : Int)) then
              .ok (output, fromPos)
            else .error "assert context mismatch"
          else .error "assert offset to ge output"
      else .error "assert offset from bounds"
    else .error "assert offset from ge from pos"
  else if d.ty = 1 then
    match d.offsetTo with
    | none => .error "TypeError none sub"
    | some toff =>
      let nn : Int := fromPos + ((toff : Int) - (output.length : Int))
      if (prevtext.length : Int) ≥ nn ∧ nn ≥ fromPos then
        .ok (output ++ pyslice prevtext fromPos nn ++ d.text ++ [10], nn)
      else .error "assert add range"
  else if d.ty = 2 then
    let nn : Int := (d.offsetFrom : Int)
    if (prevtext.length : Int) ≥ nn ∧ nn ≥ fromPos then
      let output := output ++ pyslice prevtext fromPos nn
      if d.text.isPrefixOf (pydropFrom prevtext fromPos) then
        let fromPos := fromPos + lt
        if fromPos ≠ (prevtext.length : Int) then
          match pyget prevtext fromPos with
          | some b =>
            if b = 10 then .ok (output, fromPos + 1)
            else .error "assert trailing newline"
          | none => .error "IndexError"
        else .ok (output, fromPos)
      else .error "assert delete mismatch"
    else .error "assert delete range"
  else if d.ty = 3 then
    let nn : Int := (d.offsetFrom : Int)
    if (prevtext.length : Int) ≥ nn ∧ nn ≥ fromPos then
      let output := output ++ pyslice prevtext fromPos nn
      match d.offsetTo with
      | some toff =>
        if (output.length : Int) = (toff : Int) then
          match hlLoop d.text output 0 0 d.highlightRanges with
          | .error e => .error e
          | .ok (output, dropped) =>
            let fromPos : Int := nn + lt - (dropped : Int)
            if fromPos ≠ (prevtext.length : Int) then
              match pyget prevtext fromPos with
              | some b =>
                if b = 10 then .ok (output, fromPos + 1)
                else .error "assert trailing newline"
              | none => .error "IndexError"
            else .ok (output, fromPos)
        else .error "assert change output len"
      | none =>
        match hlLoop d.text output 0 0 d.highlightRanges with
        | .error e => .error e
        | .ok (output, dropped) =>
          let fromPos : Int := nn + lt - (dropped : Int)
          if fromPos ≠ (prevtext.length : Int) then
            match pyget prevtext fromPos with
            | some b =>
              if b = 10 then .ok (output, fromPos + 1)
              else .error "assert trailing newline"
            | none => .error "IndexError"
          else .ok (output, fromPos)
      else .error "assert change range"
  else if d.ty = 4 ∨ d.ty = 5 then
    .ok (output, fromPos)
  else .error "Cant handle diff"

/-- Lines 163-238: the `for diff in res.json()['diff']` loop. -/
def applyAll (prevtext : List Nat) : List Nat × Int → List DiffElem →
    Except String (List Nat × Int)
  | st, [] => .ok st
  | st, d :: ds =>
    match applyOne prevtext st d with
    | .error e => .error e
    | .ok st' => applyAll prevtext st' ds

/-- Lines 160-244: full reconstruction of a revision from the previous
snapshot and the diff, including the for-else
`output += prevtext[from_pos:]`. -/
def applyDiffs (prevtext : List Nat) (diffs : List DiffElem) : Except String (List Nat) :=
  match applyAll prevtext ([], 0) diffs with
  | .error e => .error e
  | .ok (output, fromPos) => .ok (output ++ pydropFrom prevtext fromPos)

theorem applyAll_append (prev : List Nat) : ∀ (ds₁ ds₂ : List DiffElem) (st : List Nat × Int),
    applyAll prev st (ds₁ ++ ds₂) =
      match applyAll prev st ds₁ with
      | .error e => .error e
      | .ok st' => applyAll prev st' ds₂ := by
  intro ds₁
  induction ds₁ with
  | nil => intro ds₂ st; rfl
  | cons d ds ih =>
    intro ds₂ st
    simp only [List.cons_append, applyAll]
    cases applyOne prev st d with
    | error e => rfl
    | ok st' => exact ih ds₂ st'

/-- C2 counterexample: a type-2 (delete) element whose removed text does
NOT match the base snapshot at the declared offset (`offset['from'] = 1`,
where the base reads `[89]` but the hunk asserts `[88, 89]`), yet
reconstruction silently succeeds and returns output, because line 198 of
the code checks `prevtext[from_pos:].startswith(text)` at the running
cursor `from_pos = 0`, not at the declared offset. -/
theorem patch_mismatch_counterexample :
    ([88, 89].isPrefixOf (pydropFrom [88, 89] ((1 : Nat) : Int)) = false)
    ∧ applyDiffs [88, 89] [⟨2, [88, 89], 1, none, []⟩] = .ok [88] := by
  constructor
  · decide
  · rfl

set_option maxHeartbeats 1000000 in
/-- C2 (amended): a context (type-0) element whose asserted context does
not match the base at its declared offset always aborts reconstruction, a
delete (type-2) element whose removed text does not match the base at the
current cursor position (`from_pos`) always aborts reconstruction, and
once any element aborts, the reconstruction of the whole revision returns
an error and never an output — the export aborts with no partial result
and no retry. -/
theorem patch_mismatch_detected :
    (∀ (prev : List Nat) (st : List Nat × Int) (d : DiffElem), d.ty = 0 →
        d.text.isPrefixOf (pydropFrom prev (d.offsetFrom : Int)) = false →
        ∀ st', applyOne prev st d ≠ .ok st')
    ∧ (∀ (prev : List Nat) (st : List Nat × Int) (d : DiffElem), d.ty = 2 →
        d.text.isPrefixOf (pydropFrom prev st.2) = false →
        ∀ st', applyOne prev st d ≠ .ok st')
    ∧ (∀ (prev : List Nat) (ds₁ : List DiffElem) (d : DiffElem) (ds₂ : List DiffElem)
        (st₁ : List Nat × Int), applyAll prev ([], 0) ds₁ = .ok st₁ →
        (∀ st', applyOne prev st₁ d ≠ .ok st') →
        ∀ out, applyDiffs prev (ds₁ ++ d :: ds₂) ≠ .ok out) := by
  refine ⟨?_, ?_, ?_⟩
  · intro prev st d hty hmis st' hok
    unfold applyOne at hok
    rw [hty] at hok
    simp only [hmis] at hok
    repeat' split at hok
    all_goals simp_all
  · intro prev st d hty hmis st' hok
    unfold applyOne at hok
    rw [hty] at hok
    simp only [hmis] at hok
    repeat' split at hok
    all_goals simp_all
  · intro prev ds₁ d ds₂ st₁ h₁ h₂ out hok
    unfold applyDiffs at hok
    rw [applyAll_append prev ds₁ (d :: ds₂) ([], 0), h₁] at hok
    simp only [applyAll] at hok
    cases happ : applyOne prev st₁ d with
    | error e => rw [happ] at hok; simp at hok
    | ok st' => exact h₂ st' happ

/-- Witness for C2 (amended): a context element asserting byte 98 where the
base has byte 97 is rejected. -/
theorem patch_mismatch_detected_witness :
    ((⟨0, [98], 0, some 0, []⟩ : DiffElem).ty = 0
      ∧ ([98].isPrefixOf (pydropFrom [97] ((0 : Nat) : Int)) = false))
    ∧ applyOne [97] ([], 0) ⟨0, [98], 0, some 0, []⟩ ≠ .ok ([], 0) :=
  ⟨⟨rfl, by decide⟩, patch_mismatch_detected.1 [97] ([], 0) _ rfl (by decide) ([], 0)⟩

/-- C8: a diff element whose type is not one of the recognised categories
0 (context), 1 (add), 2 (delete), 3 (change), 4/5 (moved paragraph) makes
the parser fail (the `assert False` of line 238) rather than skip it or
guess. -/
theorem malformed_diff_rejected (prev : List Nat) (st : List Nat × Int) (d : DiffElem)
    (h : d.ty ∉ ([0, 1, 2, 3, 4, 5] : List Nat)) :
    applyOne prev st d = .error "Cant handle diff" := by
  simp only [List.mem_cons, List.mem_singleton, not_or] at h
  obtain ⟨h0, h1, h2, h3, h4, h5⟩ := h
  unfold applyOne
  simp [h0, h1, h2, h3, h4, h5]

/-- Witness for C8: a diff element of unknown type 7 is rejected. -/
theorem malformed_diff_rejected_witness :
    ((⟨7, [], 0, none, []⟩ : DiffElem).ty ∉ ([0, 1, 2, 3, 4, 5] : List Nat))
    ∧ applyOne [] ([], 0) ⟨7, [], 0, none, []⟩ = .error "Cant handle diff" :=
  ⟨by decide, malformed_diff_rejected [] ([], 0) _ (by decide)⟩

/-! ### Full-text acquisition (lines 152-156, 246-256) -/

structure RevInput where
  revid : Nat
  parentid : Nat
deriving DecidableEq, Repr

/-- Lines 152-156 and 157-256: per-revision text acquisition.  When there
is no cached snapshot for the article (`lasttext[min_ii] is None`, i.e. the
article's first-seen revision), the revision's full text is fetched by id
(line 154) and cached.  Otherwise the diff against the parent is fetched
and applied to the cached snapshot, the result is cross-checked against an
independently fetched full text (lines 247-248), and `p.error('mismatch')`
aborts on disagreement.  Returns (new cached snapshot, blob text used for
the commit). -/
def revisionText (fetch : Nat → List Nat) (getDiffs : Nat → Nat → List DiffElem)
    (lasttext : Option (List Nat)) (r : RevInput) : Except String (List Nat × List Nat) :=
  match lasttext with
  | none =>
    let text := fetch r.revid
    .ok (text, text)
  | some prevtext =>
    match applyDiffs prevtext (getDiffs r.parentid r.revid) with
    | .error e => .error e
    | .ok output =>
      let text := fetch r.revid
      if output = text ∨ output = text ++ [10] then .ok (output, text)
      else .error "mismatch"

/-- C3 counterexample: an article's first-seen revision arrives without
full text (revision records are fetched without content, line 110), yet no
error of any kind is raised: the exporter fetches the full text by revision
id and continues.  No `MissingBaseRevisionError` exists in the code. -/
theorem first_revision_no_error_counterexample :
    revisionText (fun _ => [104, 105]) (fun _ _ => []) none ⟨5, 4⟩ = .ok ([104, 105], [104, 105])
    ∧ ∀ e, revisionText (fun _ => [104, 105]) (fun _ _ => []) none ⟨5, 4⟩ ≠ .error e := by
  constructor
  · rfl
  · intro e h
    simp [revisionText] at h

/-- C3 (amended): when an article's first-seen revision arrives without
full text, the exporter fetches that revision's full text on demand by
identifier and uses it both as the cached base snapshot and as the commit
blob; no error is raised. -/
theorem first_revision_fetched_on_demand (fetch : Nat → List Nat)
    (getDiffs : Nat → Nat → List DiffElem) (r : RevInput) :
    revisionText fetch getDiffs none r = .ok (fetch r.revid, fetch r.revid) := rfl

/-! ### Mark table and comment reference scan (lines 142-143, 266-279, 298-312)

Python strings are modelled as `List Char` (`Str`).  Comments are modelled
at token granularity: `re.findall(r'\b\d+\b', comment)` finds the bare
numeric tokens (and the revision number inside a `[[Special:Diff/NNN]]`
link, whose digits also match the pattern); `re.sub(r'\b%d\b' % num, ...)`
and the `Special:Diff` substitution of lines 278-279 replace exactly those
tokens.  A comment is therefore a list of tokens: opaque words (containing
no bare numeric run), bare numbers, and diff links. -/

abbrev Str := List Char

inductive CTok
  | word (s : Str)
  | num (n : Nat)
  | difflink (n : Nat)
deriving DecidableEq, Repr

/-- `re.findall(r'\b\d+\b', comment)` over the token stream (line 268). -/
def findNums (toks : List CTok) : List Nat :=
  toks.filterMap fun t =>
    match t with
    | .word _ => none
    | .num n => some n
    | .difflink n => some n

/-- The `id2git` dict: revision id to `None` (unresolved) or the resolved
git hash. -/
abbrev MarkTable := List (Nat × Option Str)

def mtLookup : MarkTable → Nat → Option (Option Str)
  | [], _ => none
  | (k, v) :: rest, n => if k = n then some v else mtLookup rest n

def mtSet : MarkTable → Nat → Option Str → MarkTable
  | [], n, v => [(n, v)]
  | (k, w) :: rest, n, v =>
    if k = n then (k, v) :: rest else (k, w) :: mtSet rest n v

/-- One event on the fast-import channel: a write to the outbound stream
(`fid.write`), a flush (`fid.flush`), or one line read from the reply
channel (`pipe.stdout.readline()`). -/
inductive Ev
  | write (s : Str)
  | flush
  | readline (s : Str)
deriving DecidableEq, Repr

def natStr (n : Nat) : Str := (Nat.repr n).toList

/-- Line 271: `fid.write(b'get-mark :%d\n' % num)`. -/
def getMarkReq (n : Nat) : Str := "get-mark :".toList ++ natStr n ++ "\n".toList

structure ScanSt where
  table : MarkTable
  events : List Ev
  refs : List Nat
deriving DecidableEq, Repr

/-- `refs.add(num)` (line 274): set insertion, modelled with insertion
order. -/
def addRef (refs : List Nat) (n : Nat) : List Nat :=
  if n ∈ refs then refs else refs ++ [n]

/-- Lines 268-274, one numeric token: if the number is a known revision id
and still unresolved, write a `get-mark` request, flush, read one reply
line (modelled by `oracle`), cache it; any known id is added to `refs`. -/
def scanStep (oracle : Nat → Str) (st : ScanSt) (n : Nat) : ScanSt :=
  match mtLookup st.table n with
  | none => st
  | some (some _) => ⟨st.table, st.events, addRef st.refs n⟩
  | some none =>
    ⟨mtSet st.table n (some (oracle n)),
     st.events ++ [.write (getMarkReq n), .flush, .readline (oracle n)],
     addRef st.refs n⟩

/-- Lines 266-274: the scan over all numeric tokens of a comment. -/
def scanRefs (oracle : Nat → Str) (table : MarkTable) (toks : List CTok) : ScanSt :=
  (findNums toks).foldl (scanStep oracle) ⟨table, [], []⟩

/-- Python `str.isdigit` on ASCII strings. -/
def pyIsdigit (s : Str) : Bool := !s.isEmpty && s.all Char.isDigit

/-- Lines 30-31: `next(git[:ii] for ii in range(6, len(git)) if not
git[:ii].isdigit())`; `none` models the `StopIteration` this raises when
no such prefix exists (in particular whenever `len(git) <= 6`). -/
def shortgit (git : Str) : Option Str :=
  (List.range' 6 (git.length - 6)).findSome? fun ii =>
    if pyIsdigit (git.take ii) then none else some (git.take ii)

/-- `f'{id2git[r]}'` — the resolved value, with Python's `None` rendering
for an unresolved entry (never reached for members of `refs`). -/
def resolvedVal (table : MarkTable) (n : Nat) : Str :=
  match mtLookup table n with
  | some (some v) => v
  | _ => "None".toList

/-- Lines 276-279 for a single token, under `args.git_refs`: a numeric
token (bare or inside a `Special:Diff` link) equal to a member of `refs`
is replaced by `shortgit(id2git[num])`. -/
def rewriteOne (table : MarkTable) (refs : List Nat) (t : CTok) : Except String CTok :=
  match t with
  | .word s => .ok (.word s)
  | .num n =>
    if n ∈ refs then
      match shortgit (resolvedVal table n) with
      | some s => .ok (.word s)
      | none => .error "StopIteration"
    else .ok (.num n)
  | .difflink n =>
    if n ∈ refs then
      match shortgit (resolvedVal table n) with
      | some s => .ok (.word s)
      | none => .error "StopIteration"
    else .ok (.difflink n)

def rewriteToks (table : MarkTable) (refs : List Nat) (toks : List CTok) :
    Except String (List CTok) :=
  toks.mapM (rewriteOne table refs)

def joinComma (xs : List Str) : Str := List.intercalate ", ".toList xs

/-- Line 303: `'References: ' + ', '.join(f'{r} ({id2git[r]})' for r in refs)`. -/
def referencesLine (table : MarkTable) (refs : List Nat) : Str :=
  "References: ".toList ++
    joinComma (refs.map fun r => natStr r ++ " (".toList ++ resolvedVal table r ++ ")".toList)

/-- Lines 298-303: the commit message: comment, URL/Editor trailer,
optional Tags line, and — when references were found and `--git-refs` is
off — the References line. -/
def mkSummary (comment url editor : Str) (tags : List Str) (gitRefs : Bool)
    (table : MarkTable) (refs : List Nat) : Str :=
  let s := comment ++ "\n\nURL: ".toList ++ url ++ "\nEditor: ".toList ++ editor
  let s := if tags = [] then s else s ++ "\nTags: ".toList ++ joinComma tags
  if refs ≠ [] ∧ gitRefs = false then s ++ "\n".toList ++ referencesLine table refs else s

/-- Lines 307-312: the six writes of one commit record. -/
def commitEvents (head : Str) (id ts : Nat) (committer summary fn text : Str) : List Ev :=
  [.write ("commit ".toList ++ head ++ "\n".toList),
   .write ("mark :".toList ++ natStr id ++ "\n".toList),
   .write ("committer ".toList ++ committer ++ " ".toList ++ natStr ts ++ " +0000\n".toList),
   .write ("data ".toList ++ natStr summary.length ++ "\n".toList ++ summary ++ "\n".toList),
   .write ("M 644 inline ".toList ++ fn ++ ".mw\n".toList),
   .write ("data ".toList ++ natStr text.length ++ "\n".toList ++ text ++ "\n".toList)]

/-- Lines 142-143, 266-274 and 307-312 combined for one revision of the
fast-import path: register the revision id as an unresolved mark
(`id2git[id] = None`), scan the comment for references (with the
`get-mark` round trips this entails), then write the commit record whose
mark token is the revision id.  `comment` is the final comment text and
`toks` its token form.  Returns the new table, the channel events in
order, and `refs`. -/
def exportRevision (oracle : Nat → Str) (table : MarkTable) (head committer fn text url
    editor comment : Str) (tags : List Str) (gitRefs : Bool) (id ts : Nat)
    (toks : List CTok) : MarkTable × List Ev × List Nat :=
  let table1 := mtSet table id none
  let st := scanRefs oracle table1 toks
  let summary := mkSummary comment url editor tags gitRefs st.table st.refs
  (st.table, st.events ++ commitEvents head id ts committer summary fn text, st.refs)

/-- The lock-step handshake shape: every `readline` is immediately
preceded by a flush, which is immediately preceded by the write of a
`get-mark` request, with no other write in between. -/
def lockstepOk : List Ev → Bool
  | .write s :: .flush :: .readline _ :: rest =>
    "get-mark :".toList.isPrefixOf s && lockstepOk rest
  | .readline _ :: _ => false
  | _ :: rest => lockstepOk rest
  | [] => true

theorem mtLookup_mtSet_self : ∀ (t : MarkTable) (n : Nat) (v : Option Str),
    mtLookup (mtSet t n v) n = some v := by
  intro t
  induction t with
  | nil => intro n v; simp [mtSet, mtLookup]
  | cons p rest ih =>
    intro n v
    obtain ⟨k, w⟩ := p
    by_cases hk : k = n
    · simp [mtSet, mtLookup, hk]
    · simp only [mtSet, mtLookup, if_neg hk]
      exact ih n v

theorem mtLookup_mtSet_ne : ∀ (t : MarkTable) (n m : Nat) (v : Option Str), m ≠ n →
    mtLookup (mtSet t n v) m = mtLookup t m := by
  intro t
  induction t with
  | nil =>
    intro n m v h
    simp only [mtSet, mtLookup]
    rw [if_neg (fun he => h he.symm)]
  | cons p rest ih =>
    intro n m v h
    obtain ⟨k, w⟩ := p
    by_cases hk : k = n
    · subst hk
      simp only [mtSet, mtLookup, if_pos rfl]
      rw [if_neg (fun he => h he.symm), if_neg (fun he => h he.symm)]
    · simp only [mtSet, mtLookup, if_neg hk]
      by_cases hm : k = m
      · simp [hm]
      · simp only [if_neg hm]
        exact ih n m v h

/-- The three channel events of one `get-mark` round trip for mark `m`
(lines 271-273): request write, flush, one reply line. -/
def reqTriple (oracle : Nat → Str) (m : Nat) : List Ev :=
  [.write (getMarkReq m), .flush, .readline (oracle m)]

/-- Behaviour of the reference scan (lines 266-274), by induction over the
numeric tokens: resolved entries never change; absent entries stay absent
and are never added to `refs`; the events emitted are exactly one
round-trip triple per newly resolved mark, each mark resolved at most once
(`Nodup`), only for marks that occur among the scanned tokens and were
unresolved before the scan. -/
theorem scanFold_facts (oracle : Nat → Str) : ∀ (ns : List Nat) (st : ScanSt),
    (∀ (n : Nat) (v : Str), mtLookup st.table n = some (some v) →
        mtLookup ((ns.foldl (scanStep oracle) st).table) n = some (some v))
    ∧ (∀ n : Nat, mtLookup st.table n = none →
        mtLookup ((ns.foldl (scanStep oracle) st).table) n = none)
    ∧ (∃ ms : List Nat,
        (ns.foldl (scanStep oracle) st).events = st.events ++ (ms.map (reqTriple oracle)).flatten
        ∧ ms.Nodup
        ∧ ∀ m ∈ ms, m ∈ ns ∧ mtLookup st.table m = some none)
    ∧ (∀ n : Nat, mtLookup st.table n = none → n ∉ st.refs →
        n ∉ (ns.foldl (scanStep oracle) st).refs) := by
  intro ns
  induction ns with
  | nil =>
    intro st
    refine ⟨fun n v h => h, fun n h => h, ⟨[], by simp, List.nodup_nil, by simp⟩,
      fun n _ h => h⟩
  | cons n₀ rest ih =>
    intro st
    simp only [List.foldl_cons]
    cases hlk : mtLookup st.table n₀ with
    | none =>
      have hstep : scanStep oracle st n₀ = st := by
        unfold scanStep
        rw [hlk]
      rw [hstep]
      obtain ⟨ih1, ih2, ⟨ms, hev, hnd, hms⟩, ih4⟩ := ih st
      exact ⟨ih1, ih2, ⟨ms, hev, hnd, fun m hm => ⟨List.mem_cons_of_mem _ (hms m hm).1,
        (hms m hm).2⟩⟩, ih4⟩
    | some w =>
      cases w with
      | some v₀ =>
        have hstep : scanStep oracle st n₀ = ⟨st.table, st.events, addRef st.refs n₀⟩ := by
          unfold scanStep
          rw [hlk]
        rw [hstep]
        obtain ⟨ih1, ih2, ⟨ms, hev, hnd, hms⟩, ih4⟩ := ih ⟨st.table, st.events, addRef st.refs n₀⟩
        refine ⟨ih1, ih2, ⟨ms, hev, hnd, fun m hm => ⟨List.mem_cons_of_mem _ (hms m hm).1,
          (hms m hm).2⟩⟩, ?_⟩
        intro n hn hnref
        refine ih4 n hn ?_
        unfold addRef
        by_cases hmem : n₀ ∈ st.refs
        · rw [if_pos hmem]; exact hnref
        · rw [if_neg hmem]
          intro hcon
          rcases List.mem_append.mp hcon with h | h
          · exact hnref h
          · have : n = n₀ := List.mem_singleton.mp h
            subst this
            rw [hn] at hlk
            cases hlk
      | none =>
        have hstep : scanStep oracle st n₀ =
            ⟨mtSet st.table n₀ (some (oracle n₀)),
             st.events ++ reqTriple oracle n₀, addRef st.refs n₀⟩ := by
          unfold scanStep
          rw [hlk]
          rfl
        rw [hstep]
        obtain ⟨ih1, ih2, ⟨ms, hev, hnd, hms⟩, ih4⟩ :=
          ih ⟨mtSet st.table n₀ (some (oracle n₀)), st.events ++ reqTriple oracle n₀,
            addRef st.refs n₀⟩
        refine ⟨?_, ?_, ?_, ?_⟩
        · intro n v h
          have hne : n ≠ n₀ := by
            intro he
            subst he
            rw [h] at hlk
            cases hlk
          refine ih1 n v ?_
          simp only
          rw [mtLookup_mtSet_ne st.table n₀ n _ hne]
          exact h
        · intro n h
          have hne : n ≠ n₀ := by
            intro he
            subst he
            rw [h] at hlk
            cases hlk
          refine ih2 n ?_
          simp only
          rw [mtLookup_mtSet_ne st.table n₀ n _ hne]
          exact h
        · refine ⟨n₀ :: ms, ?_, ?_, ?_⟩
          · simp only at hev
            rw [hev]
            simp [List.append_assoc]
          · refine List.Nodup.cons ?_ hnd
            intro hcon
            have := (hms n₀ hcon).2
            simp only at this
            rw [mtLookup_mtSet_self] at this
            cases this
          · intro m hm
            rcases List.mem_cons.mp hm with hm | hm
            · subst hm
              exact ⟨List.mem_cons_self _ _, hlk⟩
            · have h2 := (hms m hm).2
              have hne : m ≠ n₀ := by
                intro he
                subst he
                simp only at h2
                rw [mtLookup_mtSet_self] at h2
                cases h2
              simp only at h2
              rw [mtLookup_mtSet_ne st.table n₀ m _ hne] at h2
              exact ⟨List.mem_cons_of_mem _ (hms m hm).1, h2⟩
        · intro n hn hnref
          have hne : n ≠ n₀ := by
            intro he
            subst he
            rw [hn] at hlk
            cases hlk
          refine ih4 n ?_ ?_
          · simp only
            rw [mtLookup_mtSet_ne st.table n₀ n _ hne]
            exact hn
          · simp only
            unfold addRef
            by_cases hmem : n₀ ∈ st.refs
            · rw [if_pos hmem]; exact hnref
            · rw [if_neg hmem]
              intro hcon
              rcases List.mem_append.mp hcon with h | h
              · exact hnref h
              · exact hne (List.mem_singleton.mp h)

/-- C4: within one export run, mark resolution is demand-driven and
monotone.  If a revision id's mark is already resolved to `v` in `id2git`,
then after scanning any further comment it still maps to exactly `v`
(every subsequent lookup returns the identical resolved value), and the
round trips performed by the scan are exactly one request/reply triple per
newly resolved mark — each such mark occurring among the comment's numeric
tokens and previously unresolved (demand-driven), no mark resolved twice
(`Nodup`), and never the already-resolved id. -/
theorem mark_resolution_monotone (oracle : Nat → Str) (table : MarkTable)
    (toks : List CTok) (n : Nat) (v : Str)
    (h : mtLookup table n = some (some v)) :
    mtLookup (scanRefs oracle table toks).table n = some (some v)
    ∧ ∃ ms : List Nat,
        (scanRefs oracle table toks).events = (ms.map (reqTriple oracle)).flatten
        ∧ ms.Nodup
        ∧ (∀ m ∈ ms, m ∈ findNums toks ∧ mtLookup table m = some none)
        ∧ n ∉ ms := by
  obtain ⟨f1, _, ⟨ms, hev, hnd, hms⟩, _⟩ :=
    scanFold_facts oracle (findNums toks) ⟨table, [], []⟩
  refine ⟨f1 n v h, ms, by simpa using hev, hnd, hms, ?_⟩
  intro hcon
  have := (hms n hcon).2
  rw [h] at this
  cases this

/-- Witness for C4: a table where id 7 is resolved to "abc"; after a scan
of a comment mentioning 7, the lookup still returns "abc". -/
theorem mark_resolution_monotone_witness :
    (mtLookup [(7, some "abc".toList)] 7 = some (some "abc".toList))
    ∧ mtLookup (scanRefs (fun _ => "x".toList) [(7, some "abc".toList)]
        [CTok.word "see".toList, CTok.num 7]).table 7 = some (some "abc".toList) :=
  ⟨by decide, (mark_resolution_monotone (fun _ => "x".toList) [(7, some "abc".toList)]
    [CTok.word "see".toList, CTok.num 7] 7 "abc".toList (by decide)).1⟩

/-- C5: a numeric token whose value is not a key of `id2git` — i.e. a
revision id not yet seen by the merged stream — is not treated as a
cross-reference: the scan performs no round trip for it (it is in no
resolved-marks list), it is not added to `refs` (so neither rewritten nor
listed in the References trailer), and the `--git-refs` rewrite leaves the
token as the plain number. -/
theorem forward_reference_left_plain (oracle : Nat → Str) (table : MarkTable)
    (toks : List CTok) (n : Nat)
    (_hmem : CTok.num n ∈ toks) (hnot : mtLookup table n = none) :
    mtLookup (scanRefs oracle table toks).table n = none
    ∧ n ∉ (scanRefs oracle table toks).refs
    ∧ (∃ ms : List Nat,
        (scanRefs oracle table toks).events = (ms.map (reqTriple oracle)).flatten
        ∧ n ∉ ms)
    ∧ rewriteOne (scanRefs oracle table toks).table (scanRefs oracle table toks).refs
        (CTok.num n) = .ok (CTok.num n) := by
  obtain ⟨_, f2, ⟨ms, hev, _, hms⟩, f4⟩ :=
    scanFold_facts oracle (findNums toks) ⟨table, [], []⟩
  have hrefs : n ∉ (scanRefs oracle table toks).refs := by
    refine f4 n hnot ?_
    simp
  refine ⟨f2 n hnot, hrefs, ⟨ms, by simpa using hev, ?_⟩, ?_⟩
  · intro hcon
    have := (hms n hcon).2
    rw [hnot] at this
    cases this
  · simp [rewriteOne, hrefs]

/-- Witness for C5: id 99 is referenced in a comment but absent from the
table; it is left as the plain number and not added to refs. -/
theorem forward_reference_left_plain_witness :
    (CTok.num 99 ∈ [CTok.word "see".toList, CTok.num 99]
      ∧ mtLookup [(7, some "abc".toList)] 99 = none)
    ∧ rewriteOne (scanRefs (fun _ => "x".toList) [(7, some "abc".toList)]
        [CTok.word "see".toList, CTok.num 99]).table
        (scanRefs (fun _ => "x".toList) [(7, some "abc".toList)]
        [CTok.word "see".toList, CTok.num 99]).refs (CTok.num 99) = .ok (CTok.num 99) :=
  ⟨⟨by decide, by decide⟩, (forward_reference_left_plain (fun _ => "x".toList)
    [(7, some "abc".toList)] [CTok.word "see".toList, CTok.num 99] 99
    (by decide) (by decide)).2.2.2⟩

theorem lockstepOk_writes : ∀ l : List Ev, (∀ e ∈ l, ∃ s, e = Ev.write s) →
    lockstepOk l = true := by
  intro l
  induction l with
  | nil => intro _; rfl
  | cons e rest ih =>
    intro h
    obtain ⟨s, hs⟩ := h e (List.mem_cons_self _ _)
    subst hs
    have hrest : ∀ e ∈ rest, ∃ s, e = Ev.write s :=
      fun e he => h e (List.mem_cons_of_mem _ he)
    cases rest with
    | nil => rfl
    | cons e₂ rest₂ =>
      obtain ⟨s₂, hs₂⟩ := hrest e₂ (List.mem_cons_self _ _)
      subst hs₂
      simp only [lockstepOk]
      exact ih hrest

theorem lockstepOk_triples (oracle : Nat → Str) : ∀ (ms : List Nat) (suffix : List Ev),
    (∀ e ∈ suffix, ∃ s, e = Ev.write s) →
    lockstepOk ((ms.map (reqTriple oracle)).flatten ++ suffix) = true := by
  intro ms
  induction ms with
  | nil =>
    intro suffix h
    simpa using lockstepOk_writes suffix h
  | cons m rest ih =>
    intro suffix h
    have h1 : "get-mark :".toList.isPrefixOf (getMarkReq m) = true := by
      unfold getMarkReq
      rw [List.isPrefixOf_iff_prefix, List.append_assoc]
      exact List.prefix_append _ _
    simp only [List.map_cons, List.flatten_cons, reqTriple, List.cons_append,
      List.append_assoc]
    simp only [lockstepOk, h1, Bool.true_and]
    simpa using ih suffix h

theorem commitEvents_writes (head : Str) (id ts : Nat) (committer summary fn text : Str) :
    ∀ e ∈ commitEvents head id ts committer summary fn text, ∃ s, e = Ev.write s := by
  intro e he
  simp only [commitEvents, List.mem_cons] at he
  rcases he with h | h | h | h | h | h | h
  all_goals first
    | (exact ⟨_, h⟩)
    | (simp at h)

/-- C6: every mark-resolution round trip is a strict lock-step handshake.
In the event stream any revision export produces, every reply read is
immediately preceded by a flush, which is immediately preceded by the
write of the `get-mark` request — so the exporter writes exactly one
request, flushes, then reads exactly one reply line, and no other write
to the outbound stream occurs between the request and the read. -/
theorem lockstep_handshake (oracle : Nat → Str) (table : MarkTable)
    (head committer fn text url editor comment : Str) (tags : List Str)
    (gitRefs : Bool) (id ts : Nat) (toks : List CTok) :
    lockstepOk (exportRevision oracle table head committer fn text url editor comment
      tags gitRefs id ts toks).2.1 = true := by
  obtain ⟨_, _, ⟨ms, hev, _, _⟩, _⟩ :=
    scanFold_facts oracle (findNums toks) ⟨mtSet table id none, [], []⟩
  unfold exportRevision
  simp only
  rw [show scanRefs oracle (mtSet table id none) toks
      = (findNums toks).foldl (scanStep oracle) ⟨mtSet table id none, [], []⟩ from rfl] at *
  rw [hev]
  simp only [List.nil_append]
  exact lockstepOk_triples oracle ms _ (commitEvents_writes head id ts committer _ fn text)

/-- C10 (implicit): the mark token of every emitted commit is the
revision's numeric id (`mark :%d` with `id = rev['revid']`), the same id
is the key registered in `id2git` (`id2git[id] = None`), and every
`get-mark` request the scan issues targets an id that is a key of the
table — commit marks, `MarkTable` keys and resolution requests all agree
on the same identifier. -/
theorem mark_identifiers_agree (oracle : Nat → Str) (table : MarkTable)
    (head committer fn text url editor comment : Str) (tags : List Str)
    (gitRefs : Bool) (id ts : Nat) (toks : List CTok) :
    Ev.write ("mark :".toList ++ natStr id ++ "\n".toList)
      ∈ (exportRevision oracle table head committer fn text url editor comment
          tags gitRefs id ts toks).2.1
    ∧ mtLookup (mtSet table id none) id = some none
    ∧ (∃ ms : List Nat,
        (exportRevision oracle table head committer fn text url editor comment
          tags gitRefs id ts toks).2.1
          = (ms.map (reqTriple oracle)).flatten
            ++ commitEvents head id ts committer
              (mkSummary comment url editor tags gitRefs
                (scanRefs oracle (mtSet table id none) toks).table
                (scanRefs oracle (mtSet table id none) toks).refs) fn text
        ∧ ∀ m ∈ ms, mtLookup (mtSet table id none) m ≠ none) := by
  obtain ⟨_, _, ⟨ms, hev, _, hms⟩, _⟩ :=
    scanFold_facts oracle (findNums toks) ⟨mtSet table id none, [], []⟩
  refine ⟨?_, mtLookup_mtSet_self table id none, ms, ?_, ?_⟩
  · unfold exportRevision
    simp only
    refine List.mem_append.mpr (Or.inr ?_)
    simp [commitEvents]
  · unfold exportRevision
    simp only
    rw [show scanRefs oracle (mtSet table id none) toks
        = (findNums toks).foldl (scanStep oracle) ⟨mtSet table id none, [], []⟩ from rfl] at *
    rw [hev]
    simp
  · intro m hm
    have h2 := (hms m hm).2
    simp only at h2
    rw [h2]
    simp

/-! ### Reference rewriting scenario (lines 30-31, 276-279, 302-303) -/

def c7Oracle : Nat → Str := fun _ => []

def c7Toks : List CTok :=
  [CTok.word "see".toList, CTok.word "revision".toList, CTok.num 42]

/-- C7 counterexample: in the claim's own scenario — comment
"see revision 42", revision 42 already emitted and resolved to mark
"abc123", reference-rewrite enabled — the code substitutes
`shortgit(id2git[42])` (line 279), and `shortgit` of the six-character
mark "abc123" raises `StopIteration` (`range(6, 6)` is empty, line 31):
the rewrite aborts instead of yielding "see revision abc123". -/
theorem reference_rewrite_counterexample :
    rewriteToks (scanRefs c7Oracle [(42, some "abc123".toList)] c7Toks).table
      (scanRefs c7Oracle [(42, some "abc123".toList)] c7Toks).refs c7Toks
      = .error "StopIteration"
    ∧ rewriteToks (scanRefs c7Oracle [(42, some "abc123".toList)] c7Toks).table
        (scanRefs c7Oracle [(42, some "abc123".toList)] c7Toks).refs c7Toks
      ≠ .ok [CTok.word "see".toList, CTok.word "revision".toList,
          CTok.word "abc123".toList] := by
  have h : rewriteToks (scanRefs c7Oracle [(42, some "abc123".toList)] c7Toks).table
      (scanRefs c7Oracle [(42, some "abc123".toList)] c7Toks).refs c7Toks
      = .error "StopIteration" := rfl
  refine ⟨h, ?_⟩
  rw [h]
  intro hc
  cases hc

/-- C7 (amended): with reference-rewrite enabled, the in-text reference is
replaced by the shortened form of the resolved identifier —
`shortgit(mark)`, the shortest prefix of length at least 6 (and shorter
than the whole mark) that is not purely numeric — so a mark "abc1234"
yields "see revision abc123"; with rewrite disabled the comment text is
left unchanged and a trailing "References: 42 (abc1234)" line carrying the
full mark is appended to the message. -/
theorem reference_rewrite_amended :
    rewriteToks (scanRefs c7Oracle [(42, some "abc1234".toList)] c7Toks).table
      (scanRefs c7Oracle [(42, some "abc1234".toList)] c7Toks).refs c7Toks
      = .ok [CTok.word "see".toList, CTok.word "revision".toList,
          CTok.word "abc123".toList]
    ∧ mkSummary "see revision 42".toList "u".toList "e".toList [] false
        (scanRefs c7Oracle [(42, some "abc1234".toList)] c7Toks).table
        (scanRefs c7Oracle [(42, some "abc1234".toList)] c7Toks).refs
      = "see revision 42\n\nURL: u\nEditor: e\nReferences: 42 (abc1234)".toList := by
  constructor
  · rfl
  · rfl

/-! ### Comment section / denoise / placeholder pipeline (lines 281-296)

Python `\s` on ASCII, `str.replace(..., '', 1)`, and the three regexes of
lines 282, 292 and 293 are implemented character by character. -/

def isPySpace (c : Char) : Bool :=
  c == ' ' || c == '\t' || c == '\n' || c == '\r' || c == '\x0b' || c == '\x0c'

def rstripWs (s : Str) : Str := (s.reverse.dropWhile isPySpace).reverse

/-- Split at the first occurrence of the two-character close marker
`*/`. -/
def splitAtClose : Str → Option (Str × Str)
  | [] => none
  | '*' :: '/' :: rest => some ([], rest)
  | c :: rest => (splitAtClose rest).map fun p => (c :: p.1, p.2)

/-- Line 282: `re.search(r'^\s*/\*\s*(.*?)\s*\*/\s*', comment)`.  Returns
`(group 0, group 1)`: the whole match (leading whitespace, `/*`, content,
`*/`, trailing whitespace) and the trimmed section name.  Matching fails
when the trimmed content would contain a newline, which `.` cannot
match. -/
def sectionMatch (comment : Str) : Option (Str × Str) :=
  let ws0 := comment.takeWhile isPySpace
  match comment.dropWhile isPySpace with
  | '/' :: '*' :: rest1 =>
    let ws1 := rest1.takeWhile isPySpace
    match splitAtClose (rest1.dropWhile isPySpace) with
    | none => none
    | some (mid, rest3) =>
      let sec := rstripWs mid
      if sec.any (fun c => c == '\n') then none
      else
        some (ws0 ++ '/' :: '*' :: ws1 ++ mid ++ '*' :: '/' :: rest3.takeWhile isPySpace,
          sec)
  | _ => none

/-- Python `s.replace(pat, '', 1)`: remove the first occurrence. -/
def removeFirst (pat : Str) : Str → Str
  | [] => []
  | c :: rest =>
    if pat.isPrefixOf (c :: rest) then (c :: rest).drop pat.length
    else c :: removeFirst pat rest

/-- Lines 281-289: extract the leading section marker; under `--denoise`,
a comment that is nothing but the marker becomes `Edited section "..."`,
otherwise the marker is stripped. -/
def sectionStage (denoise : Bool) (comment : Str) : Str :=
  match sectionMatch comment with
  | none => comment
  | some (g0, sec) =>
    if denoise then
      if g0 = comment then "Edited section \"".toList ++ sec ++ "\"".toList
      else removeFirst g0 comment
    else comment

def lcEq (a b : Char) : Bool := a.toLower == b.toLower

/-- Case-insensitive literal match, returning the rest of the input. -/
def matchLitCI : Str → Str → Option Str
  | [], cs => some cs
  | _ :: _, [] => none
  | p :: ps, c :: cs => if lcEq p c then matchLitCI ps cs else none

/-- The optional tail `(?:\s* \(\[\[User talk\:[^]]+\]\]\))?` of the
line-292 pattern: a whitespace run ending in a space, then
`([[User talk:...]])`. -/
def matchTalk (cs : Str) : Option Str :=
  let w := cs.takeWhile isPySpace
  let rest := cs.drop w.length
  if w.isEmpty then none
  else if w.getLast? ≠ some ' ' then none
  else match rest with
    | '(' :: r1 =>
      match matchLitCI "[[User talk:".toList r1 with
      | none => none
      | some r2 =>
        let body := r2.takeWhile (fun c => c != ']')
        if body.isEmpty then none
        else match r2.drop body.length with
          | ']' :: ']' :: ')' :: r3 => some r3
          | _ => none
    | _ => none

/-- The part of the line-292 pattern after the optional language prefix:
`Special\:Contrib(?:ution)?s/([^]|]+)\s*(?:\|[^]]*)?\]\]` plus the
optional user-talk tail.  Returns (captured group 1, rest of input). -/
def matchAfterLang (cs : Str) : Option (Str × Str) :=
  match matchLitCI "Special:Contrib".toList cs with
  | none => none
  | some cs1 =>
    let withUtion := match matchLitCI "ution".toList cs1 with
      | some c2 => matchLitCI "s/".toList c2
      | none => none
    match (match withUtion with
           | some r => some r
           | none => matchLitCI "s/".toList cs1) with
    | none => none
    | some cs2 =>
      let g1 := cs2.takeWhile (fun c => c != ']' && c != '|')
      if g1.isEmpty then none
      else
        let cs3 := cs2.drop g1.length
        let cs5 := match cs3 with
          | '|' :: r => r.dropWhile (fun c => c != ']')
          | _ => cs3
        match cs5 with
        | ']' :: ']' :: r =>
          match matchTalk r with
          | some r2 => some (g1, r2)
          | none => some (g1, r)
        | _ => none

/-- One attempt of the line-292 pattern
`\[\[(?::?%s:)?Special\:Contrib...` at the current position, with the
greedy optional language prefix tried first. -/
def matchContribs (lang : Str) (cs : Str) : Option (Str × Str) :=
  match cs with
  | '[' :: '[' :: r =>
    match (match matchLitCI (':' :: (lang ++ [':'])) r with
           | some r1 => matchAfterLang r1
           | none => none) with
    | some res => some res
    | none =>
      match (match matchLitCI (lang ++ [':']) r with
             | some r1 => matchAfterLang r1
             | none => none) with
      | some res => some res
      | none => matchAfterLang r
  | _ => none

/-- Line 292: `re.sub(pattern, r'\1', comment)` — scan left to right,
replacing each non-overlapping match with its captured group. -/
def contribsSubAux (lang : Str) : Nat → Str → Str
  | 0, cs => cs
  | _ + 1, [] => []
  | fuel + 1, c :: cs' =>
    match matchContribs lang (c :: cs') with
    | some (g1, rest) => g1 ++ contribsSubAux lang fuel rest
    | none => c :: contribsSubAux lang fuel cs'

def contribsSub (lang : Str) (cs : Str) : Str := contribsSubAux lang cs.length cs

def undidPat : Str := "[[WP:UNDO|Undid]] ".toList

/-- Line 293: `re.sub(r'^\[\[WP:UNDO\|Undid\]\] ', 'Undid ', comment)`. -/
def undidSub (c : Str) : Str :=
  if undidPat.isPrefixOf c then "Undid ".toList ++ c.drop undidPat.length else c

/-- Lines 291-293: the two `--denoise` substitutions, in source order. -/
def denoiseStage (denoise : Bool) (lang : Str) (c : Str) : Str :=
  if denoise then undidSub (contribsSub lang c) else c

/-- Lines 295-296: `if not comment: comment = '<blank>'`. -/
def blankFix (c : Str) : Str := if c = [] then "<blank>".toList else c

/-- Lines 281-296: the whole comment pipeline. -/
def commentPipeline (denoise : Bool) (lang : Str) (c : Str) : Str :=
  blankFix (denoiseStage denoise lang (sectionStage denoise c))

/-- C9: for every revision whose comment, after section-marker extraction
and optional denoising, is empty, the commit message body is the
placeholder "<blank>" rather than empty: the pipeline yields "<blank>"
and the serialized message starts with it. -/
theorem empty_comment_placeholder (dn : Bool) (lang c url editor : Str)
    (tags : List Str) (gitRefs : Bool) (table : MarkTable) (refs : List Nat)
    (h : denoiseStage dn lang (sectionStage dn c) = []) :
    commentPipeline dn lang c = "<blank>".toList
    ∧ "<blank>".toList <+:
        mkSummary (commentPipeline dn lang c) url editor tags gitRefs table refs := by
  have h1 : commentPipeline dn lang c = "<blank>".toList := by
    unfold commentPipeline
    rw [h]
    rfl
  refine ⟨h1, ?_⟩
  rw [h1]
  simp only [mkSummary]
  split_ifs
  all_goals exact List.prefix_append _ _

/-- Witness for C9: the empty comment, denoising off — the pipeline result
is empty before the final step, and the placeholder is substituted. -/
theorem empty_comment_placeholder_witness :
    (denoiseStage false "en".toList (sectionStage false []) = [])
    ∧ commentPipeline false "en".toList [] = "<blank>".toList :=
  ⟨rfl, (empty_comment_placeholder false "en".toList [] "u".toList "e".toList
    [] false [] [] rfl).1⟩
